import Mathlib

/-!
Verification development for the libeemd decomposition routines
(`src/memd.c`, `src/error.c`).  Signals are embedded as lists of
rationals (exact arithmetic standing for the C `double` buffers);
fallible routines return an error code together with the buffer
contents.  Routines whose source is not part of this repository
(the extrema detector of `extrema.c`, the spline evaluator of
`spline.c`, and the GSL random number generator and statistics
helpers) appear as explicit function parameters of the embeddings,
so every theorem below is quantified over their behaviour.
-/

namespace Libeemd

/-- Embedding of the error enumeration `libeemd_error_code` from `eemd.h`
(the codes referenced by `memd.c` and `error.c`). -/
inductive Err where
  | EMD_SUCCESS
  | EMD_INVALID_ENSEMBLE_SIZE
  | EMD_INVALID_NOISE_STRENGTH
  | EMD_NOISE_ADDED_TO_EMD
  | EMD_NO_NOISE_ADDED_TO_EEMD
  | EMD_NO_CONVERGENCE_POSSIBLE
  | EMD_NOT_ENOUGH_POINTS_FOR_SPLINE
  | EMD_INVALID_SPLINE_POINTS
  | EMD_GSL_ERROR
  | EMD_NO_CONVERGENCE_IN_SIFTING
  deriving DecidableEq, Repr

/-- A signal buffer: a contiguous array of doubles, embedded as a list of
rationals. -/
abbrev Sig := List ℚ

/-- A row-major output matrix, embedded as a list of rows. -/
abbrev Mat := List Sig

/-- Embedding of `array_add` from `memd.c`: `dest[i] += src[i]`. -/
def array_add (src dest : Sig) : Sig :=
  List.zipWith (fun d s => d + s) dest src

/-- Embedding of `array_sub` from `memd.c`: `dest[i] -= src[i]`. -/
def array_sub (src dest : Sig) : Sig :=
  List.zipWith (fun d s => d - s) dest src

/-- Embedding of `array_mult` from `memd.c`: `dest[i] *= val`. -/
def array_mult (dest : Sig) (val : ℚ) : Sig :=
  dest.map (fun d => d * val)

/-- Embedding of `array_addmul_to` from `memd.c`:
`dest[i] = src1[i] + val*src2[i]`. -/
def array_addmul_to (src1 src2 : Sig) (val : ℚ) : Sig :=
  List.zipWith (fun a b => a + val * b) src1 src2

/-- Embedding of `emd_num_imfs` from `memd.c`.  The C expression
`(size_t)(log2(N))` (base-2 logarithm of the sample count, truncated to
an integer) is embedded as `Nat.log2`. -/
def emd_num_imfs (N : ℕ) : ℕ :=
  if N = 0 then 0
  else if N ≤ 3 then 1
  else Nat.log2 N

/-- Embedding of `_validate_eemd_parameters` from `memd.c` (identical to
`validate_eemd_parameters` in `error.c`). -/
def validate_eemd_parameters (ensemble_size : ℕ) (noise_strength : ℚ)
    (S_number num_siftings : ℕ) : Err :=
  if ensemble_size < 1 then .EMD_INVALID_ENSEMBLE_SIZE
  else if noise_strength < 0 then .EMD_INVALID_NOISE_STRENGTH
  else if ensemble_size = 1 ∧ noise_strength > 0 then .EMD_NOISE_ADDED_TO_EMD
  else if ensemble_size > 1 ∧ noise_strength = 0 then .EMD_NO_NOISE_ADDED_TO_EEMD
  else if S_number = 0 ∧ num_siftings = 0 then .EMD_NO_CONVERGENCE_POSSIBLE
  else .EMD_SUCCESS

/-- Result record of the extrema and zero-crossing detector
`emd_find_extrema`.  Its implementation lives in `extrema.c`, which is
not part of this repository snapshot, so the detector is kept abstract:
the embeddings below are parameterised over a function producing this
record. -/
structure ExtremaResult where
  maxx : List ℚ
  maxy : List ℚ
  num_max : ℕ
  minx : List ℚ
  miny : List ℚ
  num_min : ℕ
  num_zc : ℕ
  deriving DecidableEq, Repr

/-- The state of the sifting loop `_sift` of `memd.c`: the signal buffer
being modified in place, the counter `*sift_counter`, the counter
`S_counter`, and the numbers of extrema and zero crossings found by the
previous iteration.  The previous counts are stored as integers because
the C code initialises them to `(size_t)(-1)` and compares them after a
cast to `int`, which yields `-1` on the first iteration. -/
structure SiftState where
  x : Sig
  sc : ℕ
  S_counter : ℕ
  prev_num_max : ℤ
  prev_num_min : ℤ
  prev_num_zc : ℤ
  deriving DecidableEq, Repr

/-- Outcome of one iteration of the sifting loop body: `stop` is the
`break` taken when the S-number criterion fires (before any envelope is
built), `fail` is the early `return` on a spline error, and `next`
continues the loop with the updated signal. -/
inductive SiftStepOut where
  | stop (st : SiftState)
  | fail (e : Err) (st : SiftState)
  | next (st : SiftState)
  deriving DecidableEq, Repr

/-- The quantity `abs(max_diff) + abs(min_diff) + abs(zc_diff)` computed
by `_sift` in `memd.c`: the summed absolute change of the numbers of
maxima, minima and zero crossings against the previous iteration. -/
def countDiff (st : SiftState) (er : ExtremaResult) : ℕ :=
  ((er.num_max : ℤ) - st.prev_num_max).natAbs +
    ((er.num_min : ℤ) - st.prev_num_min).natAbs +
    ((er.num_zc : ℤ) - st.prev_num_zc).natAbs

/-- The quantity `abs(num_diff)` with
`num_diff = num_min + num_max - 4 - num_zc` computed by `_sift` in
`memd.c`: the imbalance between interior extrema and zero crossings,
accounting for the four virtual endpoint extrema. -/
def countBalance (er : ExtremaResult) : ℕ :=
  ((er.num_min : ℤ) + (er.num_max : ℤ) - 4 - (er.num_zc : ℤ)).natAbs

/-- One iteration of the `while` body of `_sift` from `memd.c`.
`E` stands for `emd_find_extrema` (source in the missing `extrema.c`);
`Sp` stands for `emd_evaluate_spline` (source in the missing
`spline.c`), receiving the knot abscissae, ordinates and count and
returning an error code with the envelope values. -/
def siftStep (E : Sig → ExtremaResult) (Sp : List ℚ → List ℚ → ℕ → Err × Sig)
    (S_number : ℕ) (st : SiftState) : SiftStepOut :=
  let sc' := st.sc + 1
  let er := E st.x
  let d := countDiff st er
  let S_counter' :=
    if S_number ≠ 0 then (if d ≤ 1 then st.S_counter + 1 else 0) else st.S_counter
  let st' : SiftState :=
    { x := st.x, sc := sc', S_counter := S_counter',
      prev_num_max := (er.num_max : ℤ), prev_num_min := (er.num_min : ℤ),
      prev_num_zc := (er.num_zc : ℤ) }
  if S_number ≠ 0 ∧ d ≤ 1 ∧ S_number ≤ S_counter' ∧ countBalance er ≤ 1 then
    .stop st'
  else
    let maxp := Sp er.maxx er.maxy er.num_max
    if maxp.1 ≠ .EMD_SUCCESS then .fail maxp.1 st'
    else
      let minp := Sp er.minx er.miny er.num_min
      if minp.1 ≠ .EMD_SUCCESS then .fail minp.1 st'
      else
        let env := List.zipWith (fun u l => (1/2 : ℚ) * (u + l)) maxp.2 minp.2
        .next { st' with x := List.zipWith (fun a b => a - b) st'.x env }

/-- The `while` loop of `_sift` from `memd.c`, with explicit fuel: the C
loop `while (num_siftings == 0 || *sift_counter < num_siftings)` may run
unboundedly when `num_siftings = 0`, so the embedding returns `none`
when the fuel runs out while the loop would continue. -/
def siftRun (E : Sig → ExtremaResult) (Sp : List ℚ → List ℚ → ℕ → Err × Sig)
    (S_number num_siftings : ℕ) : ℕ → SiftState → Option (Err × SiftState)
  | 0, st =>
    if num_siftings = 0 ∨ st.sc < num_siftings then none
    else some (.EMD_SUCCESS, st)
  | fuel + 1, st =>
    if num_siftings = 0 ∨ st.sc < num_siftings then
      match siftStep E Sp S_number st with
      | .stop st' => some (.EMD_SUCCESS, st')
      | .fail e st' => some (e, st')
      | .next st' => siftRun E Sp S_number num_siftings fuel st'
    else some (.EMD_SUCCESS, st)

/-- Initial sifting state of `_sift`: counters zeroed and the previous
extrema counts set to the dummy value `(size_t)(-1)`, read back as the
integer `-1`. -/
def initSiftState (input : Sig) : SiftState :=
  { x := input, sc := 0, S_counter := 0,
    prev_num_max := -1, prev_num_min := -1, prev_num_zc := -1 }

/-- Embedding of `_sift` from `memd.c` (with fuel for the unbounded
`num_siftings = 0` case). -/
def sift (E : Sig → ExtremaResult) (Sp : List ℚ → List ℚ → ℕ → Err × Sig)
    (S_number num_siftings fuel : ℕ) (input : Sig) : Option (Err × SiftState) :=
  siftRun E Sp S_number num_siftings fuel (initSiftState input)

/-- Row `i` of an output matrix. -/
def row (m : Mat) (i : ℕ) : Sig := m.getD i []

/-- The zero-initialised `M × N` output buffer written by
`memset(output, 0x00, M*N*sizeof(double))`. -/
def zeroMat (M N : ℕ) : Mat := List.replicate M (List.replicate N (0 : ℚ))

/-- Entry `(i, j)` of an output matrix. -/
def val (m : Mat) (i j : ℕ) : ℚ := (m.getD i []).getD j 0

/-- Every row of the matrix has length `N`. -/
def uniform (N : ℕ) (m : Mat) : Prop := ∀ r ∈ m, r.length = N

/-- The column sum of a matrix at index `j`: the elementwise sum over all
rows of the output buffer. -/
def colSum (m : Mat) (j : ℕ) : ℚ := (m.map (fun r => r.getD j 0)).sum

/-- The sifting procedure preserves the length of the signal buffer (in
the C source sifting modifies the `N`-sample buffer in place). -/
def lenPres (siftFn : Sig → Err × Sig) : Prop :=
  ∀ s, ((siftFn s).2).length = s.length

/-- The IMF extraction loop of `_emd` from `memd.c`, iterating over the
row indices `imf_i = 0, ..., M-2`: sift the current residual down to an
IMF, subtract it from the residual, and add it to the corresponding
output row (under the row lock).  `siftFn` stands for `_sift` with the
workspace and the stopping parameters `S_number` and `num_siftings`
already applied; it returns the error code and the buffer contents. -/
def emdExtract (siftFn : Sig → Err × Sig) :
    List ℕ → Sig → Mat → Err × Sig × Mat
  | [], res, out => (.EMD_SUCCESS, res, out)
  | imf_i :: rest, res, out =>
    let p := siftFn res
    if p.1 ≠ .EMD_SUCCESS then (p.1, res, out)
    else
      let res' := array_sub p.2 res
      let out' := out.set imf_i (array_add p.2 (row out imf_i))
      emdExtract siftFn rest res' out'

/-- Embedding of `_emd` from `memd.c`.  The first loop iteration sifts
the input buffer directly and later iterations restore the previous
residual into it first; since the residual starts as a copy of the
input, every iteration sifts the current residual.  The final residual
is added to the last output row. -/
def _emd (siftFn : Sig → Err × Sig) (input : Sig) (output : Mat) (M0 : ℕ) :
    Err × Mat :=
  let N := input.length
  let M := if M0 = 0 then emd_num_imfs N else M0
  let r := emdExtract siftFn (List.range (M - 1)) input output
  if r.1 ≠ .EMD_SUCCESS then (r.1, r.2.2)
  else (.EMD_SUCCESS, r.2.2.set (M - 1) (array_add r.2.1 (row r.2.2 (M - 1))))

/-- The ensemble member signal built by `eemd` in `memd.c`: the RNG is
freshly seeded with `rng_seed + en_i` and the member signal is
`input[i] + gsl_ran_gaussian(r, noise_sigma)` samplewise.  `g` stands
for the GSL Mersenne Twister Gaussian stream (external library code):
`g s i` is the `i`-th standard normal variate drawn after seeding with
`s`, and `gsl_ran_gaussian(r, sigma)` scales it by `sigma`. -/
def memberSignal (g : ℕ → ℕ → ℚ) (input : Sig) (noise_sigma : ℚ)
    (rng_seed en_i : ℕ) : Sig :=
  (List.range input.length).map
    (fun i => input.getD i 0 + noise_sigma * g (rng_seed + en_i) i)

/-- The body of the ensemble loop of `eemd` from `memd.c` for member
`en_i`: poll the shared error flag and skip the member if an error has
occurred in an earlier member; otherwise build the member signal
(reseeding the RNG with `rng_seed + en_i` when noise is used) and run
`_emd` on it, accumulating into the shared output. -/
def eemdStep (g : ℕ → ℕ → ℚ) (siftFn : Sig → Err × Sig) (input : Sig)
    (noise_sigma : ℚ) (M : ℕ) (noise_strength : ℚ) (rng_seed : ℕ)
    (st : Err × Mat) (en_i : ℕ) : Err × Mat :=
  if st.1 ≠ .EMD_SUCCESS then st
  else
    let x := if noise_strength = 0 then input
             else memberSignal g input noise_sigma rng_seed en_i
    _emd siftFn x st.2 M

/-- Embedding of `eemd` from `memd.c`.  `sd` stands for
`gsl_stats_sd` (external GSL code).  `sched` is the order in which the
OpenMP `for` loop visits the ensemble members `0, ..., ensemble_size-1`;
a single-worker run visits them in order, i.e. with
`sched = List.range ensemble_size`. -/
def eemd (g : ℕ → ℕ → ℚ) (sd : Sig → ℚ) (siftFn : Sig → Err × Sig)
    (input : Sig) (output0 : Mat) (M0 ensemble_size : ℕ) (noise_strength : ℚ)
    (S_number num_siftings rng_seed : ℕ) (sched : List ℕ) : Err × Mat :=
  let v := validate_eemd_parameters ensemble_size noise_strength S_number num_siftings
  if v ≠ .EMD_SUCCESS then (v, output0)
  else if input.length = 0 then (.EMD_SUCCESS, output0)
  else
    let N := input.length
    let M := if M0 = 0 then emd_num_imfs N else M0
    let noise_sigma := if noise_strength ≠ 0 then sd input * noise_strength else 0
    let r := sched.foldl
      (eemdStep g siftFn input noise_sigma M noise_strength rng_seed)
      (.EMD_SUCCESS, zeroMat M N)
    if r.1 ≠ .EMD_SUCCESS then (r.1, r.2)
    else if ensemble_size ≠ 1 then
      (.EMD_SUCCESS, r.2.map (fun rw => array_mult rw (1 / (ensemble_size : ℚ))))
    else (.EMD_SUCCESS, r.2)

/-- The run of `_emd` on the signal of ensemble member `en_i` against a
fresh zero output buffer: the member's own contribution to the shared
output of `eemd`, a function of `(rng_seed, en_i)` alone (besides the
fixed input and parameters). -/
def eemdMemberRun (g : ℕ → ℕ → ℚ) (siftFn : Sig → Err × Sig) (input : Sig)
    (noise_sigma : ℚ) (M : ℕ) (noise_strength : ℚ) (rng_seed en_i : ℕ) :
    Err × Mat :=
  _emd siftFn
    (if noise_strength = 0 then input
      else memberSignal g input noise_sigma rng_seed en_i)
    (zeroMat M input.length) M

/-- The noise precomputation loop of `ceemdan` from `memd.c`: for each
ensemble member `en_i` (visited in the order given by `sched`), seed the
RNG with `rng_seed + en_i` and fill row `en_i` of the noise matrix with
unit-variance Gaussian draws. -/
def ceemdanNoises (g : ℕ → ℕ → ℚ) (rng_seed N : ℕ) (sched : List ℕ)
    (init : List Sig) : List Sig :=
  sched.foldl
    (fun acc en_i =>
      acc.set en_i ((List.range N).map (fun j => g (rng_seed + en_i) j)))
    init

/-- State of the inner ensemble loop of `ceemdan`: the shared error
flag, the output row currently being accumulated, and the noise and
noise-residual matrices. -/
structure CeemdanInner where
  sift_err : Err
  imf : Sig
  noises : List Sig
  nrs : List Sig
  deriving DecidableEq, Repr

/-- The body of the inner ensemble loop of `ceemdan` from `memd.c` for
member `en_i`: poll the shared error flag and skip if set; otherwise
build the member signal `res + noise_sigma * noise`, sift it, add the
result to the current output row, and run the noise-mode recurrence: on
`imf_i = 0` copy the noise into the noise residual, on later iterations
copy the noise residual into the noise buffer, then sift the noise
buffer and subtract the sifted mode from the noise residual.  As in the
source, the second `_sift` call overwrites the error code of the first,
and the member body runs to completion even if the data sift failed. -/
def ceemdanMember (sd : Sig → ℚ) (siftFn : Sig → Err × Sig)
    (noise_strength : ℚ) (res : Sig) (imf_i : ℕ)
    (st : CeemdanInner) (en_i : ℕ) : CeemdanInner :=
  if st.sift_err ≠ .EMD_SUCCESS then st
  else
    let noise := st.noises.getD en_i []
    let nr := st.nrs.getD en_i []
    let noise_sd := sd noise
    let noise_sigma := if noise_sd ≠ 0 then noise_strength * sd res / noise_sd else 0
    let x := array_addmul_to res noise noise_sigma
    let p := siftFn x
    let imf' := array_add p.2 st.imf
    let base := if imf_i = 0 then noise else nr
    let q := siftFn base
    { sift_err := q.1,
      imf := imf',
      noises := st.noises.set en_i q.2,
      nrs := st.nrs.set en_i (array_sub q.2 base) }

/-- The sequential outer mode loop of `ceemdan` from `memd.c`: for each
mode index `imf_i`, accumulate the ensemble members into output row
`imf_i` (partial accumulations stay in the row if a member fails),
then divide the row by the ensemble size and subtract it from the
shared residual. -/
def ceemdanModes (sd : Sig → ℚ) (siftFn : Sig → Err × Sig)
    (ensemble_size : ℕ) (noise_strength : ℚ) :
    List ℕ → Sig → List Sig → List Sig → Mat → Err × Sig × Mat
  | [], res, _, _, out => (.EMD_SUCCESS, res, out)
  | imf_i :: rest, res, noises, nrs, out =>
    let st := (List.range ensemble_size).foldl
      (ceemdanMember sd siftFn noise_strength res imf_i)
      { sift_err := .EMD_SUCCESS, imf := row out imf_i, noises := noises, nrs := nrs }
    let out1 := out.set imf_i st.imf
    if st.sift_err ≠ .EMD_SUCCESS then (st.sift_err, res, out1)
    else
      let imf2 := array_mult st.imf (1 / (ensemble_size : ℚ))
      let out2 := out1.set imf_i imf2
      ceemdanModes sd siftFn ensemble_size noise_strength rest
        (array_sub imf2 res) st.noises st.nrs out2

/-- The main body of `ceemdan` from `memd.c`, entered after parameter
validation and the `N = 0` and `M = 1` early returns, with `M` already
replaced by its default when the caller passed `0`: zero-initialise the
output, precompute the per-member noise realisations, run the
sequential mode loop, and finally add the residual into the last output
row. -/
def ceemdan_main (g : ℕ → ℕ → ℚ) (sd : Sig → ℚ) (siftFn : Sig → Err × Sig)
    (input : Sig) (M ensemble_size : ℕ) (noise_strength : ℚ)
    (rng_seed : ℕ) : Err × Mat :=
  let N := input.length
  let noises := ceemdanNoises g rng_seed N (List.range ensemble_size)
    (List.replicate ensemble_size [])
  let nrs : List Sig := List.replicate ensemble_size (List.replicate N (0 : ℚ))
  let r := ceemdanModes sd siftFn ensemble_size noise_strength
    (List.range M) input noises nrs (zeroMat M N)
  if r.1 ≠ .EMD_SUCCESS then (r.1, r.2.2)
  else (.EMD_SUCCESS, r.2.2.set (M - 1) (array_add r.2.1 (row r.2.2 (M - 1))))

/-- Embedding of `ceemdan` from `memd.c`.  The `M = 1` shortcut copies
the `N` input samples into the (single-row) output buffer with `memcpy`
and returns; it is tested before the `M = 0` default is substituted.
The `noise_residuals` buffer is allocated uninitialised in the source
and first written on mode `0` before any read; the embedding
initialises it to zeros. -/
def ceemdan (g : ℕ → ℕ → ℚ) (sd : Sig → ℚ) (siftFn : Sig → Err × Sig)
    (input : Sig) (output0 : Mat) (M0 ensemble_size : ℕ) (noise_strength : ℚ)
    (S_number num_siftings rng_seed : ℕ) : Err × Mat :=
  let v := validate_eemd_parameters ensemble_size noise_strength S_number num_siftings
  if v ≠ .EMD_SUCCESS then (v, output0)
  else if input.length = 0 then (.EMD_SUCCESS, output0)
  else if M0 = 1 then (.EMD_SUCCESS, output0.set 0 input)
  else
    ceemdan_main g sd siftFn input
      (if M0 = 0 then emd_num_imfs input.length else M0)
      ensemble_size noise_strength rng_seed

/-- Embedding of the tail of `_memd_sift_once` from `memd.c` (the
multivariate sift-once step).  `accum` stands for the direction loop
that accumulates the per-direction envelope contributions into the mean
vector `m`; its body depends on the missing `extrema.c` and `spline.c`
sources and on external CBLAS and complex-arithmetic routines, so it is
kept abstract (returning the error code of the last spline evaluation
together with the accumulated mean).  After a successful accumulation
the source scales `m` by `1.0/num_directions` with `array_mult` and
subtracts it from the signal with `array_sub`. -/
def _memd_sift_once (accum : Sig → ℕ → Err × Sig) (x : Sig)
    (num_directions : ℕ) : Err × Sig :=
  let p := accum x num_directions
  if p.1 ≠ .EMD_SUCCESS then (p.1, x)
  else (.EMD_SUCCESS, array_sub (array_mult p.2 (1 / (num_directions : ℚ))) x)

/-- The sift-once step as described by the specification: identical to
`_memd_sift_once` except that the accumulated mean is scaled by
`2/num_directions` before the subtraction.  Stated only to be compared
with the embedding of the source. -/
def memd_sift_once_spec (accum : Sig → ℕ → Err × Sig) (x : Sig)
    (num_directions : ℕ) : Err × Sig :=
  let p := accum x num_directions
  if p.1 ≠ .EMD_SUCCESS then (p.1, x)
  else (.EMD_SUCCESS, array_sub (array_mult p.2 (2 / (num_directions : ℚ))) x)

/-! Helper lemmas about the array kernels and output matrices. -/

theorem getD_set (l : List ℚ) (i a : ℕ) (v : ℚ) :
    (l.set i v).getD a 0 = if i = a ∧ a < l.length then v else l.getD a 0 := by
  by_cases h : a < l.length
  · rw [List.getD_eq_getElem _ _ (by simpa using h), List.getElem_set]
    by_cases hia : i = a
    · simp [hia, h]
    · simp only [hia, false_and, if_neg, if_false]
      exact (List.getD_eq_getElem _ _ h).symm
  · rw [List.getD_eq_default _ _ (by simpa using Nat.le_of_not_lt h),
      List.getD_eq_default _ _ (Nat.le_of_not_lt h)]
    simp [h]

theorem getD_set_row (m : Mat) (i a : ℕ) (v : Sig) :
    (m.set i v).getD a [] = if i = a ∧ a < m.length then v else m.getD a [] := by
  by_cases h : a < m.length
  · rw [List.getD_eq_getElem _ _ (by simpa using h), List.getElem_set]
    by_cases hia : i = a
    · simp [hia, h]
    · simp only [hia, false_and, if_neg, if_false]
      exact (List.getD_eq_getElem _ _ h).symm
  · rw [List.getD_eq_default _ _ (by simpa using Nat.le_of_not_lt h),
      List.getD_eq_default _ _ (Nat.le_of_not_lt h)]
    simp [h]

theorem array_add_length (src dest : Sig) :
    (array_add src dest).length = min dest.length src.length := by
  simp [array_add]

theorem array_sub_length (src dest : Sig) :
    (array_sub src dest).length = min dest.length src.length := by
  simp [array_sub]

theorem array_mult_length (dest : Sig) (v : ℚ) :
    (array_mult dest v).length = dest.length := by
  simp [array_mult]

theorem array_addmul_to_length (src1 src2 : Sig) (v : ℚ) :
    (array_addmul_to src1 src2 v).length = min src1.length src2.length := by
  simp [array_addmul_to]

theorem array_add_getD (src dest : Sig) (j : ℕ)
    (h1 : j < dest.length) (h2 : j < src.length) :
    (array_add src dest).getD j 0 = dest.getD j 0 + src.getD j 0 := by
  rw [array_add, List.getD_eq_getElem _ _ (by simp [h1, h2]),
    List.getElem_zipWith, List.getD_eq_getElem _ _ h1, List.getD_eq_getElem _ _ h2]

theorem array_sub_getD (src dest : Sig) (j : ℕ)
    (h1 : j < dest.length) (h2 : j < src.length) :
    (array_sub src dest).getD j 0 = dest.getD j 0 - src.getD j 0 := by
  rw [array_sub, List.getD_eq_getElem _ _ (by simp [h1, h2]),
    List.getElem_zipWith, List.getD_eq_getElem _ _ h1, List.getD_eq_getElem _ _ h2]

theorem array_mult_getD (dest : Sig) (v : ℚ) (j : ℕ) (h : j < dest.length) :
    (array_mult dest v).getD j 0 = dest.getD j 0 * v := by
  rw [array_mult, List.getD_eq_getElem _ _ (by simpa using h),
    List.getElem_map, List.getD_eq_getElem _ _ h]

theorem array_addmul_to_getD (src1 src2 : Sig) (v : ℚ) (j : ℕ)
    (h1 : j < src1.length) (h2 : j < src2.length) :
    (array_addmul_to src1 src2 v).getD j 0 = src1.getD j 0 + v * src2.getD j 0 := by
  rw [array_addmul_to, List.getD_eq_getElem _ _ (by simp [h1, h2]),
    List.getElem_zipWith, List.getD_eq_getElem _ _ h1, List.getD_eq_getElem _ _ h2]

theorem replicate_getD_zero (N j : ℕ) : (List.replicate N (0 : ℚ)).getD j 0 = 0 := by
  by_cases h : j < N
  · rw [List.getD_eq_getElem _ _ (by simpa using h), List.getElem_replicate]
  · rw [List.getD_eq_default _ _ (by simpa using Nat.le_of_not_lt h)]

theorem colSum_nil (j : ℕ) : colSum [] j = 0 := rfl

theorem colSum_cons (r : Sig) (m : Mat) (j : ℕ) :
    colSum (r :: m) j = r.getD j 0 + colSum m j := by
  simp [colSum]

theorem colSum_set (m : Mat) (i : ℕ) (v : Sig) (j : ℕ) (h : i < m.length) :
    colSum (m.set i v) j = colSum m j + v.getD j 0 - (m.getD i []).getD j 0 := by
  induction m generalizing i with
  | nil => simp at h
  | cons r t ih =>
    cases i with
    | zero => simp [colSum_cons]; ring
    | succ k =>
      have hk : k < t.length := by simpa using h
      simp only [List.set_cons_succ, colSum_cons, List.getD_cons_succ, ih k hk]
      ring

theorem colSum_zeroMat (M N j : ℕ) : colSum (zeroMat M N) j = 0 := by
  induction M with
  | zero => rfl
  | succ k ih =>
    simp only [zeroMat, List.replicate_succ] at ih ⊢
    rw [colSum_cons, ih, replicate_getD_zero]
    ring

theorem zeroMat_length (M N : ℕ) : (zeroMat M N).length = M := by
  simp [zeroMat]

theorem zeroMat_uniform (M N : ℕ) : uniform N (zeroMat M N) := by
  intro r hr
  simp only [zeroMat] at hr
  rw [List.eq_of_mem_replicate hr]
  simp

theorem uniform_set (N : ℕ) (m : Mat) (i : ℕ) (v : Sig) (hu : uniform N m)
    (hv : v.length = N) : uniform N (m.set i v) := by
  intro r hr
  rcases List.mem_or_eq_of_mem_set hr with h | h
  · exact hu r h
  · rw [h]; exact hv

theorem uniform_getD_length (N : ℕ) (m : Mat) (i : ℕ) (hu : uniform N m)
    (h : i < m.length) : (m.getD i []).length = N := by
  rw [List.getD_eq_getElem _ _ h]
  exact hu _ (List.getElem_mem h)

theorem val_zeroMat (M N i j : ℕ) : val (zeroMat M N) i j = 0 := by
  unfold val zeroMat
  by_cases h : i < M
  · have hrow : (List.replicate M (List.replicate N (0 : ℚ))).getD i [] =
        List.replicate N 0 := by
      rw [List.getD_eq_getElem _ _ (by simpa using h), List.getElem_replicate]
    rw [hrow, replicate_getD_zero]
  · have hrow : (List.replicate M (List.replicate N (0 : ℚ))).getD i [] = [] :=
      List.getD_eq_default _ _ (by simpa using Nat.le_of_not_lt h)
    rw [hrow]
    rfl

theorem val_set_add (m : Mat) (i a j : ℕ) (v : Sig) (N : ℕ) (hu : uniform N m)
    (hi : i < m.length) (hv : v.length = N) (hjN : j < N) :
    val (m.set i (array_add v (row m i))) a j =
      val m a j + (if i = a then v.getD j 0 else 0) := by
  unfold val row
  rw [getD_set_row]
  by_cases hia : i = a
  · rw [if_pos ⟨hia, hia ▸ hi⟩, if_pos hia]
    subst hia
    rw [array_add_getD _ _ j
      (by rw [uniform_getD_length N m i hu hi]; exact hjN)
      (by rw [hv]; exact hjN)]
  · rw [if_neg (by tauto), if_neg hia]
    ring

theorem mat_ext_getD (m1 m2 : Mat) (h : m1.length = m2.length)
    (hr : ∀ i, i < m1.length → m1.getD i [] = m2.getD i []) : m1 = m2 := by
  apply List.ext_getElem h
  intro n h1 h2
  rw [← List.getD_eq_getElem m1 [] h1, ← List.getD_eq_getElem m2 [] h2]
  exact hr n h1

theorem mat_ext_val (N : ℕ) (m1 m2 : Mat) (h : m1.length = m2.length)
    (hu1 : uniform N m1) (hu2 : uniform N m2)
    (hv : ∀ i j, i < m1.length → j < N → val m1 i j = val m2 i j) :
    m1 = m2 := by
  apply mat_ext_getD m1 m2 h
  intro i hi
  apply List.ext_getElem
  · rw [uniform_getD_length N m1 i hu1 hi, uniform_getD_length N m2 i hu2 (h ▸ hi)]
  · intro j hj1 hj2
    have hjN : j < N := by
      rw [← uniform_getD_length N m1 i hu1 hi]
      exact hj1
    have hval := hv i j hi hjN
    rwa [val, val, List.getD_eq_getElem _ _ hj1, List.getD_eq_getElem _ _ hj2] at hval

/-! Helper lemmas about the sifting loop. -/

theorem siftStep_stop_sc (E : Sig → ExtremaResult)
    (Sp : List ℚ → List ℚ → ℕ → Err × Sig) (S_number : ℕ) (st st' : SiftState)
    (h : siftStep E Sp S_number st = .stop st') :
    st'.sc = st.sc + 1 ∧ st'.x = st.x := by
  simp only [siftStep] at h
  split_ifs at h <;> cases h <;> exact ⟨rfl, rfl⟩

theorem siftStep_fail_sc (E : Sig → ExtremaResult)
    (Sp : List ℚ → List ℚ → ℕ → Err × Sig) (S_number : ℕ) (e : Err)
    (st st' : SiftState) (h : siftStep E Sp S_number st = .fail e st') :
    st'.sc = st.sc + 1 ∧ e ≠ .EMD_SUCCESS := by
  simp only [siftStep] at h
  split_ifs at h with h1 h2 h3 <;> cases h <;> exact ⟨rfl, by assumption⟩

theorem siftStep_next_sc (E : Sig → ExtremaResult)
    (Sp : List ℚ → List ℚ → ℕ → Err × Sig) (S_number : ℕ) (st st' : SiftState)
    (h : siftStep E Sp S_number st = .next st') : st'.sc = st.sc + 1 := by
  simp only [siftStep] at h
  split_ifs at h <;> cases h <;> rfl

theorem siftStep_stop_S_pos (E : Sig → ExtremaResult)
    (Sp : List ℚ → List ℚ → ℕ → Err × Sig) (S_number : ℕ) (st st' : SiftState)
    (h : siftStep E Sp S_number st = .stop st') : S_number ≠ 0 := by
  simp only [siftStep] at h
  split_ifs at h <;> cases h <;> tauto

/-- Totality of the sifting loop when a positive sifting limit is set:
with any fuel of at least `num_siftings`, the loop returns, the
reported counter never exceeds `num_siftings`, and with no S-number
criterion and no spline error it equals `num_siftings` exactly. -/
theorem siftRun_total (E : Sig → ExtremaResult)
    (Sp : List ℚ → List ℚ → ℕ → Err × Sig) (S_number num_siftings : ℕ)
    (hpos : 0 < num_siftings) :
    ∀ fuel st, num_siftings ≤ st.sc + fuel → st.sc ≤ num_siftings →
      ∃ e st', siftRun E Sp S_number num_siftings fuel st = some (e, st') ∧
        st'.sc ≤ num_siftings ∧
        (S_number = 0 → e = .EMD_SUCCESS → st'.sc = num_siftings) := by
  intro fuel
  induction fuel with
  | zero =>
    intro st h1 h2
    have hsc : st.sc = num_siftings := by omega
    refine ⟨.EMD_SUCCESS, st, ?_, by omega, fun _ _ => hsc⟩
    simp only [siftRun]
    rw [if_neg (by omega)]
  | succ fuel ih =>
    intro st h1 h2
    by_cases hg : num_siftings = 0 ∨ st.sc < num_siftings
    · have hlt : st.sc < num_siftings := by omega
      rcases hstep : siftStep E Sp S_number st with ⟨st'⟩ | ⟨e, st'⟩ | ⟨st'⟩
      · obtain ⟨hsc, _⟩ := siftStep_stop_sc E Sp S_number st st' hstep
        refine ⟨.EMD_SUCCESS, st', ?_, by omega, ?_⟩
        · simp only [siftRun]
          rw [if_pos hg, hstep]
        · intro hS0 _
          exact absurd hS0 (siftStep_stop_S_pos E Sp S_number st st' hstep)
      · obtain ⟨hsc, he⟩ := siftStep_fail_sc E Sp S_number e st st' hstep
        refine ⟨e, st', ?_, by omega, fun _ hes => absurd hes he⟩
        simp only [siftRun]
        rw [if_pos hg, hstep]
      · have hsc := siftStep_next_sc E Sp S_number st st' hstep
        obtain ⟨e, st'', hrun, hle, hexact⟩ := ih st' (by omega) (by omega)
        refine ⟨e, st'', ?_, hle, hexact⟩
        simp only [siftRun]
        rw [if_pos hg, hstep]
        exact hrun
    · have hsc : st.sc = num_siftings := by omega
      refine ⟨.EMD_SUCCESS, st, ?_, by omega, fun _ _ => hsc⟩
      simp only [siftRun]
      rw [if_neg hg]

/-- Once the sifting loop returns within some fuel, any larger fuel
returns the same result. -/
theorem siftRun_mono (E : Sig → ExtremaResult)
    (Sp : List ℚ → List ℚ → ℕ → Err × Sig) (S_number num_siftings : ℕ) :
    ∀ fuel st r, siftRun E Sp S_number num_siftings fuel st = some r →
      ∀ fuel', fuel ≤ fuel' →
        siftRun E Sp S_number num_siftings fuel' st = some r := by
  intro fuel
  induction fuel with
  | zero =>
    intro st r h fuel' _
    simp only [siftRun] at h
    by_cases hg : num_siftings = 0 ∨ st.sc < num_siftings
    · rw [if_pos hg] at h
      cases h
    · rw [if_neg hg] at h
      cases fuel' with
      | zero => simp only [siftRun]; rw [if_neg hg]; exact h
      | succ f => simp only [siftRun]; rw [if_neg hg]; exact h
  | succ fuel ih =>
    intro st r h fuel' hle
    simp only [siftRun] at h
    obtain ⟨f, rfl⟩ : ∃ f, fuel' = f + 1 := ⟨fuel' - 1, by omega⟩
    by_cases hg : num_siftings = 0 ∨ st.sc < num_siftings
    · rw [if_pos hg] at h
      simp only [siftRun]
      rw [if_pos hg]
      rcases hstep : siftStep E Sp S_number st with ⟨st'⟩ | ⟨e, st'⟩ | ⟨st'⟩ <;>
        rw [hstep] at h <;> simp only
      · exact h
      · exact h
      · exact ih st' r h f (by omega)
    · rw [if_neg hg] at h
      simp only [siftRun]
      rw [if_neg hg]
      exact h

/-- Invariant of the IMF extraction loop of `_emd`: the loop preserves
row lengths, and on success the elementwise sum of the output rows plus
the running residual is preserved. -/
theorem emdExtract_invariant (siftFn : Sig → Err × Sig) (hlen : lenPres siftFn)
    (N : ℕ) :
    ∀ (idxs : List ℕ) (res : Sig) (out : Mat), res.length = N → uniform N out →
      (∀ i ∈ idxs, i < out.length) →
      (emdExtract siftFn idxs res out).2.2.length = out.length ∧
      uniform N (emdExtract siftFn idxs res out).2.2 ∧
      (emdExtract siftFn idxs res out).2.1.length = N ∧
      ((emdExtract siftFn idxs res out).1 = .EMD_SUCCESS → ∀ j, j < N →
        colSum (emdExtract siftFn idxs res out).2.2 j +
            (emdExtract siftFn idxs res out).2.1.getD j 0 =
          colSum out j + res.getD j 0) := by
  intro idxs
  induction idxs with
  | nil =>
    intro res out hres hout _
    exact ⟨rfl, hout, hres, fun _ _ _ => rfl⟩
  | cons i rest ih =>
    intro res out hres hout hidx
    simp only [emdExtract]
    by_cases hp : (siftFn res).1 ≠ .EMD_SUCCESS
    · rw [if_pos hp]
      exact ⟨rfl, hout, hres, fun he => absurd he hp⟩
    · rw [if_neg hp]
      have hi : i < out.length := hidx i (List.mem_cons_self i rest)
      have hp2 : ((siftFn res).2).length = N := by rw [hlen res, hres]
      have hrowlen : (row out i).length = N :=
        uniform_getD_length N out i hout hi
      have hres' : (array_sub (siftFn res).2 res).length = N := by
        rw [array_sub_length, hres, hp2]
        omega
      have hvlen : (array_add (siftFn res).2 (row out i)).length = N := by
        rw [array_add_length, hrowlen, hp2]
        omega
      have hout' : uniform N (out.set i (array_add (siftFn res).2 (row out i))) :=
        uniform_set N out i _ hout hvlen
      have hlen' : (out.set i (array_add (siftFn res).2 (row out i))).length =
          out.length := List.length_set out i _
      have hidx' : ∀ a ∈ rest, a <
          (out.set i (array_add (siftFn res).2 (row out i))).length := by
        intro a ha
        rw [hlen']
        exact hidx a (List.mem_cons_of_mem i ha)
      obtain ⟨ihlen, ihunif, ihres, ihsum⟩ :=
        ih (array_sub (siftFn res).2 res)
          (out.set i (array_add (siftFn res).2 (row out i))) hres' hout' hidx'
      refine ⟨by rw [ihlen, hlen'], ihunif, ihres, ?_⟩
      intro he j hj
      rw [ihsum he j hj]
      rw [colSum_set out i _ j hi]
      rw [array_add_getD _ _ j (by rw [hrowlen]; exact hj) (by rw [hp2]; exact hj)]
      rw [array_sub_getD _ _ j (by rw [hres]; exact hj) (by rw [hp2]; exact hj)]
      show colSum out j + ((out.getD i []).getD j 0 + ((siftFn res).2).getD j 0) -
          (out.getD i []).getD j 0 + (res.getD j 0 - ((siftFn res).2).getD j 0) = _
      ring

/-- The extraction loop's error code and residual do not depend on the
output buffer it accumulates into, and the contribution it adds to the
buffer (the pointwise difference) is buffer-independent as well. -/
theorem emdExtract_out_independent (siftFn : Sig → Err × Sig)
    (hlen : lenPres siftFn) (N : ℕ) :
    ∀ (idxs : List ℕ) (res : Sig) (out1 out2 : Mat), res.length = N →
      uniform N out1 → uniform N out2 → out1.length = out2.length →
      (∀ i ∈ idxs, i < out1.length) →
      (emdExtract siftFn idxs res out1).1 = (emdExtract siftFn idxs res out2).1 ∧
      (emdExtract siftFn idxs res out1).2.1 = (emdExtract siftFn idxs res out2).2.1 ∧
      ∀ i j, i < out1.length → j < N →
        val (emdExtract siftFn idxs res out1).2.2 i j - val out1 i j =
        val (emdExtract siftFn idxs res out2).2.2 i j - val out2 i j := by
  intro idxs
  induction idxs with
  | nil =>
    intro res out1 out2 _ _ _ _ _
    exact ⟨rfl, rfl, fun i j _ _ => by simp [emdExtract]⟩
  | cons i rest ih =>
    intro res out1 out2 hres hu1 hu2 hl hidx
    simp only [emdExtract]
    by_cases hp : (siftFn res).1 ≠ .EMD_SUCCESS
    · rw [if_pos hp, if_pos hp]
      exact ⟨rfl, rfl, fun _ _ _ _ => by ring⟩
    · rw [if_neg hp, if_neg hp]
      have hi1 : i < out1.length := hidx i (List.mem_cons_self i rest)
      have hi2 : i < out2.length := hl ▸ hi1
      have hp2 : ((siftFn res).2).length = N := by rw [hlen res, hres]
      have hres' : (array_sub (siftFn res).2 res).length = N := by
        rw [array_sub_length, hres, hp2]
        omega
      have hrow1 : (row out1 i).length = N := uniform_getD_length N out1 i hu1 hi1
      have hrow2 : (row out2 i).length = N := uniform_getD_length N out2 i hu2 hi2
      have hv1 : (array_add (siftFn res).2 (row out1 i)).length = N := by
        rw [array_add_length, hrow1, hp2]
        omega
      have hv2 : (array_add (siftFn res).2 (row out2 i)).length = N := by
        rw [array_add_length, hrow2, hp2]
        omega
      have hu1' : uniform N (out1.set i (array_add (siftFn res).2 (row out1 i))) :=
        uniform_set N out1 i _ hu1 hv1
      have hu2' : uniform N (out2.set i (array_add (siftFn res).2 (row out2 i))) :=
        uniform_set N out2 i _ hu2 hv2
      have hl' : (out1.set i (array_add (siftFn res).2 (row out1 i))).length =
          (out2.set i (array_add (siftFn res).2 (row out2 i))).length := by
        rw [List.length_set, List.length_set]
        exact hl
      have hidx' : ∀ a ∈ rest, a <
          (out1.set i (array_add (siftFn res).2 (row out1 i))).length := by
        intro a ha
        rw [List.length_set]
        exact hidx a (List.mem_cons_of_mem i ha)
      obtain ⟨ihe, ihres, ihval⟩ := ih (array_sub (siftFn res).2 res)
        (out1.set i (array_add (siftFn res).2 (row out1 i)))
        (out2.set i (array_add (siftFn res).2 (row out2 i))) hres' hu1' hu2' hl' hidx'
      refine ⟨ihe, ihres, ?_⟩
      intro a j ha hj
      have h1 := ihval a j (by rw [List.length_set]; exact ha) hj
      rw [val_set_add out1 i a j _ N hu1 hi1 hp2 hj,
        val_set_add out2 i a j _ N hu2 hi2 hp2 hj] at h1
      linarith [h1]

/-- Dimension preservation for `_emd`: the output keeps its length and
uniform row lengths.  Assumes the buffer has at least the effective
number of rows. -/
theorem emd_dims (siftFn : Sig → Err × Sig) (hlen : lenPres siftFn)
    (x : Sig) (M : ℕ) (hM : 1 ≤ M) (out : Mat) (hu : uniform x.length out)
    (hl : out.length = M) :
    (_emd siftFn x out M).2.length = M ∧ uniform x.length (_emd siftFn x out M).2 := by
  have hM0 : ¬ M = 0 := by omega
  simp only [_emd]
  rw [if_neg hM0]
  obtain ⟨hel, heu, her, _⟩ := emdExtract_invariant siftFn hlen x.length
    (List.range (M - 1)) x out rfl hu
    (by
      intro i hi
      rw [hl]
      have := List.mem_range.mp hi
      omega)
  by_cases he : (emdExtract siftFn (List.range (M - 1)) x out).1 ≠ .EMD_SUCCESS
  · rw [if_pos he]
    exact ⟨by rw [hel, hl], heu⟩
  · rw [if_neg he]
    have hM1 : M - 1 < (emdExtract siftFn (List.range (M - 1)) x out).2.2.length := by
      rw [hel, hl]
      omega
    have hvl : (array_add (emdExtract siftFn (List.range (M - 1)) x out).2.1
        (row (emdExtract siftFn (List.range (M - 1)) x out).2.2 (M - 1))).length =
        x.length := by
      rw [array_add_length]
      unfold row
      rw [uniform_getD_length _ _ _ heu hM1, her]
      omega
    refine ⟨by rw [List.length_set, hel, hl], ?_⟩
    exact uniform_set _ _ _ _ heu hvl

/-- The error code of `_emd` does not depend on the output buffer, and
the contribution added to the buffer is buffer-independent. -/
theorem emd_out_independent (siftFn : Sig → Err × Sig) (hlen : lenPres siftFn)
    (x : Sig) (M : ℕ) (hM : 1 ≤ M) (out1 out2 : Mat)
    (hu1 : uniform x.length out1) (hu2 : uniform x.length out2)
    (hl1 : out1.length = M) (hl2 : out2.length = M) :
    (_emd siftFn x out1 M).1 = (_emd siftFn x out2 M).1 ∧
    ∀ i j, i < M → j < x.length →
      val (_emd siftFn x out1 M).2 i j - val out1 i j =
      val (_emd siftFn x out2 M).2 i j - val out2 i j := by
  have hM0 : ¬ M = 0 := by omega
  simp only [_emd]
  rw [if_neg hM0]
  have hidx1 : ∀ i ∈ List.range (M - 1), i < out1.length := by
    intro i hi
    rw [hl1]
    have := List.mem_range.mp hi
    omega
  obtain ⟨hee, hrr, hvv⟩ := emdExtract_out_independent siftFn hlen x.length
    (List.range (M - 1)) x out1 out2 rfl hu1 hu2 (by rw [hl1, hl2]) hidx1
  obtain ⟨hel1, heu1, her1, _⟩ := emdExtract_invariant siftFn hlen x.length
    (List.range (M - 1)) x out1 rfl hu1 hidx1
  obtain ⟨hel2, heu2, her2, _⟩ := emdExtract_invariant siftFn hlen x.length
    (List.range (M - 1)) x out2 rfl hu2
    (by
      intro i hi
      rw [hl2]
      have := List.mem_range.mp hi
      omega)
  by_cases he : (emdExtract siftFn (List.range (M - 1)) x out1).1 ≠ .EMD_SUCCESS
  · rw [if_pos he, if_pos (hee ▸ he)]
    exact ⟨hee, fun i j hi hj => hvv i j (by rw [hl1]; exact hi) hj⟩
  · rw [if_neg he, if_neg (hee ▸ he)]
    refine ⟨rfl, ?_⟩
    intro i j hi hj
    have hM1a : M - 1 < (emdExtract siftFn (List.range (M - 1)) x out1).2.2.length := by
      rw [hel1, hl1]
      omega
    have hM1b : M - 1 < (emdExtract siftFn (List.range (M - 1)) x out2).2.2.length := by
      rw [hel2, hl2]
      omega
    rw [val_set_add _ _ _ _ _ x.length heu1 hM1a her1 hj,
      val_set_add _ _ _ _ _ x.length heu2 hM1b her2 hj]
    have hx := hvv i j (by rw [hl1]; exact hi) hj
    rw [hrr]
    linarith [hx]

theorem memberSignal_length (g : ℕ → ℕ → ℚ) (input : Sig) (noise_sigma : ℚ)
    (rng_seed en_i : ℕ) :
    (memberSignal g input noise_sigma rng_seed en_i).length = input.length := by
  simp [memberSignal]

theorem memberX_length (g : ℕ → ℕ → ℚ) (input : Sig) (noise_sigma ns : ℚ)
    (rng_seed en_i : ℕ) :
    (if ns = 0 then input
      else memberSignal g input noise_sigma rng_seed en_i).length =
      input.length := by
  split
  · rfl
  · exact memberSignal_length g input noise_sigma rng_seed en_i

theorem emd_num_imfs_pos (N : ℕ) (h : 1 ≤ N) : 1 ≤ emd_num_imfs N := by
  unfold emd_num_imfs
  rw [if_neg (by omega)]
  by_cases h3 : N ≤ 3
  · rw [if_pos h3]
  · rw [if_neg h3]
    rw [Nat.log2_eq_log_two]
    have : 1 ≤ Nat.log 2 N := Nat.le_log_of_pow_le (by omega) (by omega)
    exact this

/-- When the shared error flag is set, the whole remainder of the
ensemble loop of `eemd` is skipped: the fold leaves the state
untouched. -/
theorem eemd_fold_skip (g : ℕ → ℕ → ℚ) (siftFn : Sig → Err × Sig) (input : Sig)
    (noise_sigma : ℚ) (M : ℕ) (ns : ℚ) (seed : ℕ) :
    ∀ (sched : List ℕ) (st : Err × Mat), st.1 ≠ .EMD_SUCCESS →
      sched.foldl (eemdStep g siftFn input noise_sigma M ns seed) st = st := by
  intro sched
  induction sched with
  | nil => intro st _; rfl
  | cons en rest ih =>
    intro st h
    rw [List.foldl_cons, show eemdStep g siftFn input noise_sigma M ns seed st en = st
      from by unfold eemdStep; rw [if_pos h]]
    exact ih st h

/-- Accumulation formula for the ensemble loop of `eemd`: when every
scheduled member's own run succeeds, the loop succeeds and each output
entry receives the sum of the members' zero-buffer contributions, in
schedule order. -/
theorem eemd_fold_sum (g : ℕ → ℕ → ℚ) (siftFn : Sig → Err × Sig) (input : Sig)
    (noise_sigma : ℚ) (M : ℕ) (ns : ℚ) (seed : ℕ) (hlen : lenPres siftFn)
    (hM : 1 ≤ M) :
    ∀ (sched : List ℕ) (st : Err × Mat), st.1 = .EMD_SUCCESS →
      uniform input.length st.2 → st.2.length = M →
      (∀ en ∈ sched,
        (eemdMemberRun g siftFn input noise_sigma M ns seed en).1 = .EMD_SUCCESS) →
      (sched.foldl (eemdStep g siftFn input noise_sigma M ns seed) st).1 =
          .EMD_SUCCESS ∧
      (sched.foldl (eemdStep g siftFn input noise_sigma M ns seed) st).2.length = M ∧
      uniform input.length
        (sched.foldl (eemdStep g siftFn input noise_sigma M ns seed) st).2 ∧
      ∀ i j, i < M → j < input.length →
        val (sched.foldl (eemdStep g siftFn input noise_sigma M ns seed) st).2 i j =
          val st.2 i j +
            ((sched.map (fun en =>
              val (eemdMemberRun g siftFn input noise_sigma M ns seed en).2 i j)).sum) := by
  intro sched
  induction sched with
  | nil =>
    intro st hst hu hl _
    exact ⟨hst, hl, hu, fun i j _ _ => by simp⟩
  | cons en rest ih =>
    intro st hst hu hl hmem
    rw [List.foldl_cons]
    have hstep : eemdStep g siftFn input noise_sigma M ns seed st en =
        _emd siftFn
          (if ns = 0 then input else memberSignal g input noise_sigma seed en)
          st.2 M := by
      unfold eemdStep
      rw [if_neg (by rw [hst]; exact fun hh => hh rfl)]
    have hxl := memberX_length g input noise_sigma ns seed en
    have hux : uniform
        (if ns = 0 then input
          else memberSignal g input noise_sigma seed en).length st.2 := by
      rw [hxl]; exact hu
    have huz : uniform
        (if ns = 0 then input
          else memberSignal g input noise_sigma seed en).length
        (zeroMat M input.length) := by
      rw [hxl]; exact zeroMat_uniform M input.length
    obtain ⟨hee, hvv⟩ := emd_out_independent siftFn hlen
      (if ns = 0 then input else memberSignal g input noise_sigma seed en) M hM
      st.2 (zeroMat M input.length) hux huz hl (zeroMat_length M input.length)
    have hen : (eemdMemberRun g siftFn input noise_sigma M ns seed en).1 =
        .EMD_SUCCESS := hmem en (List.mem_cons_self en rest)
    have hstep1 : (eemdStep g siftFn input noise_sigma M ns seed st en).1 =
        .EMD_SUCCESS := by
      rw [hstep, hee]
      exact hen
    obtain ⟨hdl, hdu⟩ := emd_dims siftFn hlen
      (if ns = 0 then input else memberSignal g input noise_sigma seed en) M hM
      st.2 hux hl
    have hdl' : (eemdStep g siftFn input noise_sigma M ns seed st en).2.length = M := by
      rw [hstep]; exact hdl
    have hdu' : uniform input.length
        (eemdStep g siftFn input noise_sigma M ns seed st en).2 := by
      rw [hstep]
      rw [← hxl]
      exact hdu
    obtain ⟨ih1, ih2, ih3, ih4⟩ := ih (eemdStep g siftFn input noise_sigma M ns seed st en)
      hstep1 hdu' hdl' (fun a ha => hmem a (List.mem_cons_of_mem en ha))
    refine ⟨ih1, ih2, ih3, ?_⟩
    intro i j hi hj
    rw [ih4 i j hi hj]
    have hcontrib := hvv i j hi (by rw [hxl]; exact hj)
    rw [val_zeroMat] at hcontrib
    have : val (eemdStep g siftFn input noise_sigma M ns seed st en).2 i j =
        val st.2 i j +
          val (eemdMemberRun g siftFn input noise_sigma M ns seed en).2 i j := by
      rw [hstep]
      unfold eemdMemberRun
      rw [← hxl] at hj
      linarith [hvv i j hi hj]
    rw [this, List.map_cons, List.sum_cons]
    ring

/-- If the ensemble loop of `eemd` ends with a success flag, the flag
was a success at entry and every scheduled member's own run
succeeded. -/
theorem eemd_fold_success (g : ℕ → ℕ → ℚ) (siftFn : Sig → Err × Sig)
    (input : Sig) (noise_sigma : ℚ) (M : ℕ) (ns : ℚ) (seed : ℕ)
    (hlen : lenPres siftFn) (hM : 1 ≤ M) :
    ∀ (sched : List ℕ) (st : Err × Mat), uniform input.length st.2 →
      st.2.length = M →
      (sched.foldl (eemdStep g siftFn input noise_sigma M ns seed) st).1 =
        .EMD_SUCCESS →
      st.1 = .EMD_SUCCESS ∧ ∀ en ∈ sched,
        (eemdMemberRun g siftFn input noise_sigma M ns seed en).1 = .EMD_SUCCESS := by
  intro sched
  induction sched with
  | nil =>
    intro st _ _ h
    exact ⟨h, fun en hen => absurd hen (List.not_mem_nil en)⟩
  | cons en rest ih =>
    intro st hu hl h
    rw [List.foldl_cons] at h
    by_cases hst : st.1 = .EMD_SUCCESS
    · have hstep : eemdStep g siftFn input noise_sigma M ns seed st en =
          _emd siftFn
            (if ns = 0 then input else memberSignal g input noise_sigma seed en)
            st.2 M := by
        unfold eemdStep
        rw [if_neg (by rw [hst]; exact fun hh => hh rfl)]
      have hxl := memberX_length g input noise_sigma ns seed en
      have hux : uniform
          (if ns = 0 then input
            else memberSignal g input noise_sigma seed en).length st.2 := by
        rw [hxl]; exact hu
      have huz : uniform
          (if ns = 0 then input
            else memberSignal g input noise_sigma seed en).length
          (zeroMat M input.length) := by
        rw [hxl]; exact zeroMat_uniform M input.length
      obtain ⟨hee, _⟩ := emd_out_independent siftFn hlen
        (if ns = 0 then input else memberSignal g input noise_sigma seed en) M hM
        st.2 (zeroMat M input.length) hux huz hl (zeroMat_length M input.length)
      by_cases hmem : (eemdMemberRun g siftFn input noise_sigma M ns seed en).1 =
          .EMD_SUCCESS
      · obtain ⟨hdl, hdu⟩ := emd_dims siftFn hlen
          (if ns = 0 then input else memberSignal g input noise_sigma seed en) M hM
          st.2 hux hl
        have hdu' : uniform input.length
            (eemdStep g siftFn input noise_sigma M ns seed st en).2 := by
          rw [hstep, ← hxl]
          exact hdu
        have hdl' : (eemdStep g siftFn input noise_sigma M ns seed st en).2.length =
            M := by
          rw [hstep]; exact hdl
        obtain ⟨_, hrest⟩ := ih _ hdu' hdl' h
        refine ⟨hst, ?_⟩
        intro a ha
        rcases List.mem_cons.mp ha with rfl | ha'
        · exact hmem
        · exact hrest a ha'
      · exfalso
        have hflag : (eemdStep g siftFn input noise_sigma M ns seed st en).1 ≠
            .EMD_SUCCESS := by
          rw [hstep, hee]
          exact hmem
        rw [eemd_fold_skip g siftFn input noise_sigma M ns seed rest _ hflag] at h
        exact hflag h
    · exfalso
      have hstep : eemdStep g siftFn input noise_sigma M ns seed st en = st := by
        unfold eemdStep
        rw [if_pos hst]
      rw [hstep, eemd_fold_skip g siftFn input noise_sigma M ns seed rest st hst] at h
      exact hst h

theorem ceemdanNoises_length (g : ℕ → ℕ → ℚ) (seed N : ℕ) :
    ∀ (sched : List ℕ) (init : List Sig),
      (ceemdanNoises g seed N sched init).length = init.length := by
  intro sched
  induction sched with
  | nil => intro init; rfl
  | cons a rest ih =>
    intro init
    unfold ceemdanNoises at ih ⊢
    rw [List.foldl_cons, ih, List.length_set]

theorem ceemdanNoises_getD (g : ℕ → ℕ → ℚ) (seed N : ℕ) :
    ∀ (sched : List ℕ) (init : List Sig) (en : ℕ),
      (ceemdanNoises g seed N sched init).getD en [] =
        if en ∈ sched ∧ en < init.length then
          (List.range N).map (fun j => g (seed + en) j)
        else init.getD en [] := by
  intro sched
  induction sched with
  | nil =>
    intro init en
    rw [if_neg (by simp)]
    rfl
  | cons a rest ih =>
    intro init en
    unfold ceemdanNoises at ih ⊢
    rw [List.foldl_cons, ih, List.length_set]
    by_cases hr : en ∈ rest
    · by_cases hl : en < init.length
      · rw [if_pos ⟨hr, hl⟩, if_pos ⟨List.mem_cons_of_mem a hr, hl⟩]
      · rw [if_neg (by tauto), if_neg (by tauto), getD_set_row,
          if_neg (by tauto)]
    · rw [if_neg (by tauto), getD_set_row]
      by_cases ha : a = en
      · subst ha
        by_cases hl : a < init.length
        · rw [if_pos ⟨rfl, hl⟩, if_pos ⟨List.mem_cons_self a rest, hl⟩]
        · rw [if_neg (by tauto), if_neg (by tauto)]
      · rw [if_neg (by tauto)]
        rw [if_neg ?hfin]
        case hfin =>
          rintro ⟨hmem2, _⟩
          rcases List.mem_cons.mp hmem2 with h1 | h1
          · exact ha h1.symm
          · exact hr h1

theorem gsl_ne_success : Err.EMD_GSL_ERROR ≠ Err.EMD_SUCCESS := by decide

/-! Claim theorems. -/

/-- C2: for every `N`, `emd_num_imfs N` returns `0` when `N = 0`,
returns `1` when `1 ≤ N ≤ 3`, and returns the floor of the base-2
logarithm of `N` when `N ≥ 4`. -/
theorem c2_emd_num_imfs (N : ℕ) :
    (N = 0 → emd_num_imfs N = 0) ∧
    (1 ≤ N → N ≤ 3 → emd_num_imfs N = 1) ∧
    (4 ≤ N → (emd_num_imfs N : ℤ) = ⌊Real.logb 2 (N : ℝ)⌋) := by
  refine ⟨fun h => by simp [emd_num_imfs, h], fun h1 h2 => ?_, fun h4 => ?_⟩
  · unfold emd_num_imfs
    rw [if_neg (by omega), if_pos h2]
  · have h0 : (0 : ℝ) ≤ (N : ℝ) := Nat.cast_nonneg N
    have hfl := Real.floor_logb_natCast (b := 2) (r := (N : ℝ)) h0
    rw [Int.log_natCast] at hfl
    unfold emd_num_imfs
    rw [if_neg (by omega), if_neg (by omega), Nat.log2_eq_log_two]
    rw [show ((2 : ℕ) : ℝ) = (2 : ℝ) by norm_num] at hfl
    exact hfl.symm

theorem c2_emd_num_imfs_witness :
    emd_num_imfs 0 = 0 ∧ emd_num_imfs 2 = 1 ∧
      (emd_num_imfs 8 : ℤ) = ⌊Real.logb 2 ((8 : ℕ) : ℝ)⌋ :=
  ⟨(c2_emd_num_imfs 0).1 rfl,
   (c2_emd_num_imfs 2).2.1 (by decide) (by decide),
   (c2_emd_num_imfs 8).2.2 (by decide)⟩

/-- C3: the shared parameter validation of `eemd` and `ceemdan` returns,
with this precedence: `EMD_INVALID_ENSEMBLE_SIZE` if the ensemble size
is zero; else `EMD_INVALID_NOISE_STRENGTH` if the noise strength is
negative; else `EMD_NOISE_ADDED_TO_EMD` if the ensemble size is one and
the noise strength positive; else `EMD_NO_NOISE_ADDED_TO_EEMD` if the
ensemble size exceeds one and the noise strength is zero; else
`EMD_NO_CONVERGENCE_POSSIBLE` if both stopping parameters are zero;
otherwise `EMD_SUCCESS`.  The five misuse codes are pairwise distinct
and distinct from success, and both `eemd` and `ceemdan` return the
validation code with the output buffer untouched before doing any other
work. -/
theorem c3_validation (es : ℕ) (ns : ℚ) (S n : ℕ) :
    (es = 0 → validate_eemd_parameters es ns S n = .EMD_INVALID_ENSEMBLE_SIZE) ∧
    (0 < es → ns < 0 → validate_eemd_parameters es ns S n = .EMD_INVALID_NOISE_STRENGTH) ∧
    (es = 1 → 0 < ns → validate_eemd_parameters es ns S n = .EMD_NOISE_ADDED_TO_EMD) ∧
    (1 < es → ns = 0 → validate_eemd_parameters es ns S n = .EMD_NO_NOISE_ADDED_TO_EEMD) ∧
    (0 < es → 0 ≤ ns → ¬(es = 1 ∧ 0 < ns) → ¬(1 < es ∧ ns = 0) → S = 0 → n = 0 →
      validate_eemd_parameters es ns S n = .EMD_NO_CONVERGENCE_POSSIBLE) ∧
    (0 < es → 0 ≤ ns → ¬(es = 1 ∧ 0 < ns) → ¬(1 < es ∧ ns = 0) → ¬(S = 0 ∧ n = 0) →
      validate_eemd_parameters es ns S n = .EMD_SUCCESS) ∧
    ([Err.EMD_INVALID_ENSEMBLE_SIZE, Err.EMD_INVALID_NOISE_STRENGTH,
      Err.EMD_NOISE_ADDED_TO_EMD, Err.EMD_NO_NOISE_ADDED_TO_EEMD,
      Err.EMD_NO_CONVERGENCE_POSSIBLE].Nodup ∧
      Err.EMD_SUCCESS ∉ [Err.EMD_INVALID_ENSEMBLE_SIZE, Err.EMD_INVALID_NOISE_STRENGTH,
        Err.EMD_NOISE_ADDED_TO_EMD, Err.EMD_NO_NOISE_ADDED_TO_EEMD,
        Err.EMD_NO_CONVERGENCE_POSSIBLE]) ∧
    (∀ g sd siftFn input out0 M0 seed sched,
      validate_eemd_parameters es ns S n ≠ .EMD_SUCCESS →
      eemd g sd siftFn input out0 M0 es ns S n seed sched =
        (validate_eemd_parameters es ns S n, out0) ∧
      ceemdan g sd siftFn input out0 M0 es ns S n seed =
        (validate_eemd_parameters es ns S n, out0)) := by
  refine ⟨?_, ?_, ?_, ?_, ?_, ?_, by decide, ?_⟩
  · intro h
    unfold validate_eemd_parameters
    rw [if_pos (by omega)]
  · intro h1 h2
    unfold validate_eemd_parameters
    rw [if_neg (by omega), if_pos h2]
  · intro h1 h2
    unfold validate_eemd_parameters
    rw [if_neg (by omega), if_neg (by simp only [not_lt]; linarith), if_pos ⟨h1, h2⟩]
  · intro h1 h2
    unfold validate_eemd_parameters
    rw [if_neg (by omega), if_neg (by simp [h2]),
      if_neg (by rintro ⟨he, _⟩; omega), if_pos ⟨h1, h2⟩]
  · intro h1 h2 h3 h4 h5 h6
    unfold validate_eemd_parameters
    rw [if_neg (by omega), if_neg (by simp only [not_lt]; linarith),
      if_neg h3, if_neg h4, if_pos ⟨h5, h6⟩]
  · intro h1 h2 h3 h4 h5
    unfold validate_eemd_parameters
    rw [if_neg (by omega), if_neg (by simp only [not_lt]; linarith),
      if_neg h3, if_neg h4, if_neg h5]
  · intro g sd siftFn input out0 M0 seed sched hv
    constructor
    · unfold eemd
      rw [if_pos hv]
    · unfold ceemdan
      rw [if_pos hv]

theorem c3_validation_witness :
    validate_eemd_parameters 0 1 1 1 = .EMD_INVALID_ENSEMBLE_SIZE ∧
    validate_eemd_parameters 2 0 1 1 = .EMD_NO_NOISE_ADDED_TO_EEMD ∧
    validate_eemd_parameters 2 1 1 1 = .EMD_SUCCESS ∧
    eemd (fun _ _ => 0) (fun _ => 0) (fun s => (.EMD_SUCCESS, s))
      [1] [[5]] 1 0 1 1 1 0 [] = (.EMD_INVALID_ENSEMBLE_SIZE, [[5]]) :=
  ⟨(c3_validation 0 1 1 1).1 rfl,
   (c3_validation 2 0 1 1).2.2.2.1 (by decide) rfl,
   (c3_validation 2 1 1 1).2.2.2.2.2.1 (by decide) (by decide)
     (by decide) (by decide) (by decide),
   by
    have h := ((c3_validation 0 1 1 1).2.2.2.2.2.2.2
      (fun _ _ => (0 : ℚ)) (fun _ => (0 : ℚ)) (fun s => (.EMD_SUCCESS, s))
      [1] [[5]] 1 0 [] (by decide)).1
    rw [h]
    decide⟩

/-- C8 counterexample: at a concrete input the multivariate sift-once
step of the source differs from the specified one that scales the
accumulated mean by `2/num_directions`: the source scales by
`1/num_directions`. -/
theorem c8_counterexample :
    _memd_sift_once (fun _ _ => (.EMD_SUCCESS, [1])) [0] 1 ≠
      memd_sift_once_spec (fun _ _ => (.EMD_SUCCESS, [1])) [0] 1 := by
  norm_num [_memd_sift_once, memd_sift_once_spec, array_sub, array_mult]

/-- C8 amended: in the multivariate sift-once step, after accumulating
the per-direction envelope contributions into the mean vector `m`, `m`
is scaled by the factor `1/num_directions` (not `2/num_directions`)
before being subtracted from the signal `x`. -/
theorem c8_memd_scaling (accum : Sig → ℕ → Err × Sig) (x m : Sig)
    (num_directions : ℕ) (j : ℕ)
    (hm : accum x num_directions = (.EMD_SUCCESS, m))
    (hjx : j < x.length) (hjm : j < m.length) :
    (_memd_sift_once accum x num_directions).1 = .EMD_SUCCESS ∧
    ((_memd_sift_once accum x num_directions).2).getD j 0 =
      x.getD j 0 - (1 / (num_directions : ℚ)) * m.getD j 0 := by
  have hres : _memd_sift_once accum x num_directions =
      (.EMD_SUCCESS, array_sub (array_mult m (1 / (num_directions : ℚ))) x) := by
    unfold _memd_sift_once
    rw [hm]
    simp
  rw [hres]
  refine ⟨rfl, ?_⟩
  rw [array_sub_getD _ _ _ hjx (by rw [array_mult_length]; exact hjm),
    array_mult_getD _ _ _ hjm]
  ring

theorem c8_memd_scaling_witness :
    (_memd_sift_once (fun _ _ => (.EMD_SUCCESS, [3])) [10] 2).1 = .EMD_SUCCESS ∧
    ((_memd_sift_once (fun _ _ => (.EMD_SUCCESS, [3])) [10] 2).2).getD 0 0 =
      (10 : ℚ) - (1 / ((2 : ℕ) : ℚ)) * 3 := by
  have h := c8_memd_scaling (fun _ _ => (.EMD_SUCCESS, [3])) [10] [3] 2 0
    rfl (by decide) (by decide)
  simpa using h

/-- C1: for every input of length at least one and every requested row
count `M ≥ 1`, after a successful `_emd` decomposition into the
zero-initialised `M`-row output buffer (the single-member, zero-noise
path), the elementwise sum over the output rows equals the input
signal: rows `0` to `M-2` receive the extracted IMFs, row `M-1` the
final residual, and the residual is maintained by subtracting each
extracted IMF, so the sum telescopes back to the input (exactly, in
the exact-arithmetic embedding).  The theorem holds for every
behaviour of the (length-preserving) sifting procedure. -/
theorem c1_emd_reconstruction (siftFn : Sig → Err × Sig) (input : Sig)
    (M : ℕ) (out : Mat) (hlen : lenPres siftFn) (hN : 1 ≤ input.length)
    (hM : 1 ≤ M)
    (hout : _emd siftFn input (zeroMat M input.length) M = (.EMD_SUCCESS, out)) :
    ∀ j, j < input.length → colSum out j = input.getD j 0 := by
  intro j hj
  have hMne : ¬ M = 0 := by omega
  simp only [_emd] at hout
  rw [if_neg hMne] at hout
  obtain ⟨hl, hu, hr, hs⟩ := emdExtract_invariant siftFn hlen input.length
    (List.range (M - 1)) input (zeroMat M input.length) rfl
    (zeroMat_uniform _ _)
    (by
      intro i hi
      rw [zeroMat_length]
      have := List.mem_range.mp hi
      omega)
  by_cases he : (emdExtract siftFn (List.range (M - 1)) input
      (zeroMat M input.length)).1 ≠ .EMD_SUCCESS
  · rw [if_pos he] at hout
    exact absurd (congrArg Prod.fst hout) (by simpa using he)
  · rw [if_neg he] at hout
    push_neg at he
    have hout2 := congrArg Prod.snd hout
    simp only at hout2
    have hM1 : M - 1 < (emdExtract siftFn (List.range (M - 1)) input
        (zeroMat M input.length)).2.2.length := by
      rw [hl, zeroMat_length]
      omega
    have hrowlen : ((emdExtract siftFn (List.range (M - 1)) input
        (zeroMat M input.length)).2.2.getD (M - 1) []).length = input.length :=
      uniform_getD_length _ _ _ hu hM1
    have hsum := hs he j hj
    rw [colSum_zeroMat] at hsum
    rw [← hout2, colSum_set _ _ _ j hM1]
    rw [array_add_getD _ _ j
      (by unfold row; rw [hrowlen]; exact hj)
      (by rw [hr]; exact hj)]
    simp only [row]
    linarith [hsum]

theorem c1_emd_reconstruction_witness :
    colSum [[1, 2], [0, 0]] 0 = ([1, 2] : Sig).getD 0 0 :=
  c1_emd_reconstruction (fun s => (.EMD_SUCCESS, s)) [1, 2] 2 [[1, 2], [0, 0]]
    (fun _ => rfl) (by decide) (by decide)
    (by
      norm_num [_emd, emdExtract, array_sub, array_add, zeroMat, row,
        List.range_succ, List.replicate_succ])
    0 (by decide)

/-- C4: in the sifter with `S_number > 0`, an iteration of the sifting
loop returns via the S-number break — before building envelopes, with
the signal unchanged — exactly when the consecutive-stability counter,
incremented on an iteration whose summed absolute count change is at
most `1` and reset to zero otherwise, has reached at least `S_number`
after its update and additionally the balance
`abs(num_max + num_min - 4 - num_zc) ≤ 1` holds for the current
counts; on a continuing iteration the counter carries exactly that
increment-or-reset update. -/
theorem c4_s_number_stop (E : Sig → ExtremaResult)
    (Sp : List ℚ → List ℚ → ℕ → Err × Sig) (S_number : ℕ) (st : SiftState)
    (hS : 0 < S_number) :
    ((∃ st', siftStep E Sp S_number st = .stop st') ↔
      (countDiff st (E st.x) ≤ 1 ∧ S_number ≤ st.S_counter + 1 ∧
        countBalance (E st.x) ≤ 1)) ∧
    (∀ st', siftStep E Sp S_number st = .next st' →
      st'.S_counter =
        if countDiff st (E st.x) ≤ 1 then st.S_counter + 1 else 0) ∧
    (∀ st', siftStep E Sp S_number st = .stop st' →
      st'.x = st.x ∧ st'.sc = st.sc + 1) := by
  have hS' : S_number ≠ 0 := hS.ne'
  refine ⟨⟨?_, ?_⟩, ?_, ?_⟩
  · rintro ⟨st', h⟩
    simp only [siftStep] at h
    by_cases hcond : S_number ≠ 0 ∧ countDiff st (E st.x) ≤ 1 ∧
        S_number ≤ (if S_number ≠ 0 then
          (if countDiff st (E st.x) ≤ 1 then st.S_counter + 1 else 0)
          else st.S_counter) ∧ countBalance (E st.x) ≤ 1
    · obtain ⟨_, hd, hsc, hbal⟩ := hcond
      rw [if_pos hS', if_pos hd] at hsc
      exact ⟨hd, hsc, hbal⟩
    · rw [if_neg hcond] at h
      by_cases h1 : (Sp (E st.x).maxx (E st.x).maxy (E st.x).num_max).1 ≠ .EMD_SUCCESS
      · rw [if_pos h1] at h; cases h
      · rw [if_neg h1] at h
        by_cases h2 : (Sp (E st.x).minx (E st.x).miny (E st.x).num_min).1 ≠ .EMD_SUCCESS
        · rw [if_pos h2] at h; cases h
        · rw [if_neg h2] at h; cases h
  · rintro ⟨hd, hsc, hbal⟩
    have hcond : S_number ≠ 0 ∧ countDiff st (E st.x) ≤ 1 ∧
        S_number ≤ (if S_number ≠ 0 then
          (if countDiff st (E st.x) ≤ 1 then st.S_counter + 1 else 0)
          else st.S_counter) ∧ countBalance (E st.x) ≤ 1 := by
      refine ⟨hS', hd, ?_, hbal⟩
      rw [if_pos hS', if_pos hd]
      exact hsc
    exact ⟨_, by simp only [siftStep]; rw [if_pos hcond]⟩
  · intro st' h
    simp only [siftStep] at h
    by_cases hcond : S_number ≠ 0 ∧ countDiff st (E st.x) ≤ 1 ∧
        S_number ≤ (if S_number ≠ 0 then
          (if countDiff st (E st.x) ≤ 1 then st.S_counter + 1 else 0)
          else st.S_counter) ∧ countBalance (E st.x) ≤ 1
    · rw [if_pos hcond] at h; cases h
    · rw [if_neg hcond] at h
      by_cases h1 : (Sp (E st.x).maxx (E st.x).maxy (E st.x).num_max).1 ≠ .EMD_SUCCESS
      · rw [if_pos h1] at h; cases h
      · rw [if_neg h1] at h
        by_cases h2 : (Sp (E st.x).minx (E st.x).miny (E st.x).num_min).1 ≠ .EMD_SUCCESS
        · rw [if_pos h2] at h; cases h
        · rw [if_neg h2] at h
          cases h
          change (if S_number ≠ 0 then
            (if countDiff st (E st.x) ≤ 1 then st.S_counter + 1 else 0)
            else st.S_counter) = _
          rw [if_pos hS']
  · intro st' h
    have := siftStep_stop_sc E Sp S_number st st' h
    exact ⟨this.2, this.1⟩

theorem c4_s_number_stop_witness :
    ((∃ st', siftStep (fun _ => ⟨[], [], 2, [], [], 2, 1⟩)
        (fun _ _ _ => (.EMD_SUCCESS, [])) 1 ⟨[1], 0, 0, 2, 2, 1⟩ = .stop st') ↔
      (countDiff ⟨[1], 0, 0, 2, 2, 1⟩
          ((fun _ => (⟨[], [], 2, [], [], 2, 1⟩ : ExtremaResult)) [(1 : ℚ)]) ≤ 1 ∧
        1 ≤ (0 : ℕ) + 1 ∧
        countBalance ((fun _ => (⟨[], [], 2, [], [], 2, 1⟩ : ExtremaResult)) [(1 : ℚ)]) ≤ 1)) ∧
    (∀ st', siftStep (fun _ => ⟨[], [], 2, [], [], 2, 1⟩)
        (fun _ _ _ => (.EMD_SUCCESS, [])) 1 ⟨[1], 0, 0, 2, 2, 1⟩ = .next st' →
      st'.S_counter =
        if countDiff ⟨[1], 0, 0, 2, 2, 1⟩
            ((fun _ => (⟨[], [], 2, [], [], 2, 1⟩ : ExtremaResult)) [(1 : ℚ)]) ≤ 1
        then (0 : ℕ) + 1 else 0) ∧
    (∀ st', siftStep (fun _ => ⟨[], [], 2, [], [], 2, 1⟩)
        (fun _ _ _ => (.EMD_SUCCESS, [])) 1 ⟨[1], 0, 0, 2, 2, 1⟩ = .stop st' →
      st'.x = [1] ∧ st'.sc = 0 + 1) :=
  c4_s_number_stop (fun _ => ⟨[], [], 2, [], [], 2, 1⟩)
    (fun _ _ _ => (.EMD_SUCCESS, [])) 1 ⟨[1], 0, 0, 2, 2, 1⟩ (by decide)

/-- C5: for every positive `num_siftings`, every `S_number` and every
input, the sifting loop terminates after at most `num_siftings`
iterations (any fuel of at least `num_siftings` yields the same
result), the reported `sift_counter` never exceeds `num_siftings`, and
when `S_number = 0` and no spline error occurs it performs exactly
`num_siftings` iterations. -/
theorem c5_sift_iterations (E : Sig → ExtremaResult)
    (Sp : List ℚ → List ℚ → ℕ → Err × Sig) (S_number num_siftings : ℕ)
    (input : Sig) (hpos : 0 < num_siftings) :
    ∃ e st, (∀ fuel, num_siftings ≤ fuel →
        sift E Sp S_number num_siftings fuel input = some (e, st)) ∧
      st.sc ≤ num_siftings ∧
      (S_number = 0 → e = .EMD_SUCCESS → st.sc = num_siftings) := by
  obtain ⟨e, st, hrun, hle, hexact⟩ :=
    siftRun_total E Sp S_number num_siftings hpos num_siftings
      (initSiftState input) (by simp [initSiftState]) (by simp [initSiftState])
  refine ⟨e, st, ?_, hle, hexact⟩
  intro fuel hfuel
  unfold sift
  exact siftRun_mono E Sp S_number num_siftings num_siftings
    (initSiftState input) (e, st) hrun fuel hfuel

theorem c5_sift_iterations_witness :
    ∃ e st, (∀ fuel, 2 ≤ fuel →
        sift (fun _ => ⟨[], [], 2, [], [], 2, 1⟩)
          (fun _ _ _ => (.EMD_SUCCESS, [])) 0 2 fuel [0] = some (e, st)) ∧
      st.sc ≤ 2 ∧ ((0 : ℕ) = 0 → e = .EMD_SUCCESS → st.sc = 2) :=
  c5_sift_iterations (fun _ => ⟨[], [], 2, [], [], 2, 1⟩)
    (fun _ _ _ => (.EMD_SUCCESS, [])) 0 2 [0] (by decide)

/-- C6: in `eemd` the signal for ensemble member `en_i` is built from a
fresh RNG stream seeded with `rng_seed + en_i` (the `memberSignal`
function of `(rng_seed, en_i)` alone), so the output of a successful
run does not depend on the order in which the members are visited: any
permutation of the canonical single-worker schedule yields the same
output.  Likewise, `ceemdan` precomputes member `en_i`'s noise from the
stream seeded with `rng_seed + en_i`, and the precomputed noise matrix
is the same for every visiting order. -/
theorem c6_rng_reproducibility :
    (∀ (g : ℕ → ℕ → ℚ) (sd : Sig → ℚ) (siftFn : Sig → Err × Sig) (input : Sig)
      (output0 : Mat) (M0 es : ℕ) (ns : ℚ) (S n seed : ℕ) (sched : List ℕ)
      (out : Mat),
      lenPres siftFn → sched.Perm (List.range es) →
      eemd g sd siftFn input output0 M0 es ns S n seed (List.range es) =
        (.EMD_SUCCESS, out) →
      eemd g sd siftFn input output0 M0 es ns S n seed sched =
        (.EMD_SUCCESS, out)) ∧
    (∀ (g : ℕ → ℕ → ℚ) (seed N es : ℕ) (sched : List ℕ) (init : List Sig),
      sched.Perm (List.range es) → init.length = es →
      ceemdanNoises g seed N sched init =
        ceemdanNoises g seed N (List.range es) init) := by
  constructor
  · intro g sd siftFn input output0 M0 es ns S n seed sched out hlen hperm hcanon
    simp only [eemd] at hcanon ⊢
    by_cases hv : validate_eemd_parameters es ns S n ≠ .EMD_SUCCESS
    · rw [if_pos hv] at hcanon ⊢
      exact hcanon
    · rw [if_neg hv] at hcanon ⊢
      by_cases hN : input.length = 0
      · rw [if_pos hN] at hcanon ⊢
        exact hcanon
      · rw [if_neg hN] at hcanon ⊢
        set M := if M0 = 0 then emd_num_imfs input.length else M0 with hMdef
        set nsig := if ns ≠ 0 then sd input * ns else 0 with hnsigdef
        have hM : 1 ≤ M := by
          rw [hMdef]
          by_cases hM0 : M0 = 0
          · rw [if_pos hM0]
            exact emd_num_imfs_pos input.length (by omega)
          · rw [if_neg hM0]
            omega
        by_cases hfc1 : ((List.range es).foldl
            (eemdStep g siftFn input nsig M ns seed)
            (.EMD_SUCCESS, zeroMat M input.length)).1 ≠ .EMD_SUCCESS
        · rw [if_pos hfc1] at hcanon
          exact absurd (congrArg Prod.fst hcanon) (by simpa using hfc1)
        · push_neg at hfc1
          rw [if_neg (by rw [hfc1]; exact fun hh => hh rfl)] at hcanon
          obtain ⟨-, hmembers⟩ := eemd_fold_success g siftFn input nsig M ns seed
            hlen hM (List.range es) (.EMD_SUCCESS, zeroMat M input.length)
            (zeroMat_uniform _ _) (zeroMat_length _ _) hfc1
          have hmembersS : ∀ en ∈ sched,
              (eemdMemberRun g siftFn input nsig M ns seed en).1 = .EMD_SUCCESS :=
            fun en ha => hmembers en (hperm.subset ha)
          obtain ⟨hc1, hc2, hc3, hc4⟩ := eemd_fold_sum g siftFn input nsig M ns seed
            hlen hM (List.range es) (.EMD_SUCCESS, zeroMat M input.length) rfl
            (zeroMat_uniform _ _) (zeroMat_length _ _) hmembers
          obtain ⟨hs1, hs2, hs3, hs4⟩ := eemd_fold_sum g siftFn input nsig M ns seed
            hlen hM sched (.EMD_SUCCESS, zeroMat M input.length) rfl
            (zeroMat_uniform _ _) (zeroMat_length _ _) hmembersS
          have hmat : (sched.foldl (eemdStep g siftFn input nsig M ns seed)
              (.EMD_SUCCESS, zeroMat M input.length)).2 =
              ((List.range es).foldl (eemdStep g siftFn input nsig M ns seed)
                (.EMD_SUCCESS, zeroMat M input.length)).2 := by
            apply mat_ext_val input.length _ _ (by rw [hs2, hc2]) hs3 hc3
            intro i j hi hj
            have hiM : i < M := by rw [← hs2]; exact hi
            rw [hs4 i j hiM hj, hc4 i j hiM hj]
            have hsum := (hperm.map (fun en =>
              val (eemdMemberRun g siftFn input nsig M ns seed en).2 i j)).sum_eq
            rw [hsum]
          rw [if_neg (by rw [hs1]; exact fun hh => hh rfl), hmat]
          exact hcanon
  · intro g seed N es sched init hperm hlen
    apply mat_ext_getD
    · rw [ceemdanNoises_length, ceemdanNoises_length]
    · intro en _
      rw [ceemdanNoises_getD, ceemdanNoises_getD]
      by_cases hmem : en ∈ sched
      · have hb : en < init.length := by
          rw [hlen]
          exact List.mem_range.mp (hperm.subset hmem)
        rw [if_pos ⟨hmem, hb⟩, if_pos ⟨hperm.subset hmem, hb⟩]
      · have hmem2 : en ∉ List.range es := fun hh => hmem (hperm.mem_iff.mpr hh)
        rw [if_neg (by tauto), if_neg (by tauto)]

theorem c6_rng_reproducibility_witness :
    eemd (fun s i => (s : ℚ) + i) (fun _ => 1) (fun v => (.EMD_SUCCESS, v))
      [1, 2] [[9, 9], [9, 9]] 2 2 1 1 1 0 [1, 0] =
      (.EMD_SUCCESS, [[3 / 2, 7 / 2], [0, 0]]) ∧
    ceemdanNoises (fun s i => (s : ℚ) + i) 0 1 [1, 0] [[5], [5]] =
      ceemdanNoises (fun s i => (s : ℚ) + i) 0 1 (List.range 2) [[5], [5]] :=
  ⟨c6_rng_reproducibility.1 (fun s i => (s : ℚ) + i) (fun _ => 1)
      (fun v => (.EMD_SUCCESS, v)) [1, 2] [[9, 9], [9, 9]] 2 2 1 1 1 0 [1, 0]
      [[3 / 2, 7 / 2], [0, 0]] (fun _ => rfl) (by decide)
      (by
        norm_num [eemd, eemdStep, _emd, emdExtract, memberSignal,
          validate_eemd_parameters, array_sub, array_add, array_mult, zeroMat,
          row, List.range_succ, List.replicate_succ]),
   c6_rng_reproducibility.2 (fun s i => (s : ℚ) + i) 0 1 2 [1, 0] [[5], [5]]
      (by decide) rfl⟩

/-- C7 counterexample: on the first outer iteration (`imf_i = 0`) the
member body of `ceemdan` does not save the result of sifting the noise
as `noise_residual[en_i]`.  At a concrete input where the noise is
`[4]` and the sifted noise is `[1]`, the stored noise residual is
`[4] - [1] = [3]`, not the sift result `[1]`: the code copies the
pre-sift noise into the residual and then subtracts the sifted mode. -/
theorem c7_counterexample :
    (ceemdanMember (fun _ => 1) (fun _ => (.EMD_SUCCESS, [1])) 1 [0] 0
        { sift_err := .EMD_SUCCESS, imf := [0], noises := [[4]], nrs := [[9]] }
        0).nrs.getD 0 [] ≠
      ((fun (_ : Sig) => ((Err.EMD_SUCCESS), [(1 : ℚ)]))
        (({ sift_err := .EMD_SUCCESS, imf := [0], noises := [[4]], nrs := [[9]] } :
          CeemdanInner).noises.getD 0 [])).2 := by
  norm_num [ceemdanMember, array_sub, array_add, array_addmul_to]

/-- C7 amended: in CEEMDAN's per-member body, after the data mode is
extracted the noise itself is sifted one mode; the signal that is
sifted is the stored noise on the first outer iteration (`imf_i = 0`)
and the previous `noise_residual` (loaded into the noise buffer)
afterwards; in both cases the sifted mode replaces the noise buffer and
the noise residual is set to the sifted signal's pre-sift value minus
the sifted mode (so on the first iteration it holds
`noise - sifted_noise`, not the sift result itself), and the member's
error flag becomes the noise sift's code. -/
theorem c7_noise_recurrence (sd : Sig → ℚ) (siftFn : Sig → Err × Sig)
    (ns : ℚ) (res : Sig) (imf_i : ℕ) (st : CeemdanInner) (en : ℕ)
    (hok : st.sift_err = .EMD_SUCCESS) (hn : en < st.noises.length)
    (hr : en < st.nrs.length) :
    (ceemdanMember sd siftFn ns res imf_i st en).imf =
      array_add (siftFn (array_addmul_to res (st.noises.getD en [])
        (if sd (st.noises.getD en []) ≠ 0 then
          ns * sd res / sd (st.noises.getD en []) else 0))).2 st.imf ∧
    (ceemdanMember sd siftFn ns res imf_i st en).noises.getD en [] =
      (siftFn (if imf_i = 0 then st.noises.getD en []
        else st.nrs.getD en [])).2 ∧
    (ceemdanMember sd siftFn ns res imf_i st en).nrs.getD en [] =
      array_sub
        (siftFn (if imf_i = 0 then st.noises.getD en []
          else st.nrs.getD en [])).2
        (if imf_i = 0 then st.noises.getD en [] else st.nrs.getD en []) ∧
    (ceemdanMember sd siftFn ns res imf_i st en).sift_err =
      (siftFn (if imf_i = 0 then st.noises.getD en []
        else st.nrs.getD en [])).1 := by
  have hflag : ¬ st.sift_err ≠ .EMD_SUCCESS := by
    rw [hok]
    exact fun h => h rfl
  unfold ceemdanMember
  rw [if_neg hflag]
  refine ⟨rfl, ?_, ?_, rfl⟩
  · rw [getD_set_row, if_pos ⟨rfl, hn⟩]
  · rw [getD_set_row, if_pos ⟨rfl, hr⟩]

theorem c7_noise_recurrence_witness :
    (ceemdanMember (fun _ => 1) (fun v => (.EMD_SUCCESS, v)) 1 [0] 1
        { sift_err := .EMD_SUCCESS, imf := [0], noises := [[4]], nrs := [[9]] }
        0).nrs.getD 0 [] = array_sub [9] [9] := by
  have h := c7_noise_recurrence (fun _ => 1) (fun v => (.EMD_SUCCESS, v)) 1 [0] 1
    { sift_err := .EMD_SUCCESS, imf := [0], noises := [[4]], nrs := [[9]] } 0
    rfl (by decide) (by decide)
  simpa using h.2.2.1

/-- C9 counterexample: when an ensemble member of `eemd` fails after an
earlier member succeeded, `eemd` returns a non-success code but the
output buffer is not limited to its zero-initialisation: it retains the
successful member's accumulated rows.  Here member 0 succeeds and adds
`[1, 3]` to row 0; member 1's sift fails. -/
theorem c9_counterexample :
    (eemd (fun s i => (s : ℚ) + i) (fun _ => 1)
        (fun v => if v = [2, 4] then (.EMD_GSL_ERROR, v) else (.EMD_SUCCESS, v))
        [1, 2] [[9, 9], [9, 9]] 2 2 1 1 1 0 (List.range 2)).1 ≠ .EMD_SUCCESS ∧
    (eemd (fun s i => (s : ℚ) + i) (fun _ => 1)
        (fun v => if v = [2, 4] then (.EMD_GSL_ERROR, v) else (.EMD_SUCCESS, v))
        [1, 2] [[9, 9], [9, 9]] 2 2 1 1 1 0 (List.range 2)).2 ≠ zeroMat 2 2 := by
  norm_num [eemd, eemdStep, _emd, emdExtract, memberSignal,
    validate_eemd_parameters, array_sub, array_add, zeroMat, row,
    List.range_succ, List.replicate_succ, gsl_ne_success]

/-- C9 amended: once the shared error flag is set, the remaining
ensemble members of `eemd` and `ceemdan` are skipped entirely at their
entry poll — no new sift is started and no state is modified; however,
on a non-success return the output buffer may retain, beyond its
zero-initialisation, the contributions accumulated by members processed
before the error was observed. -/
theorem c9_error_skip :
    (∀ (g : ℕ → ℕ → ℚ) (siftFn : Sig → Err × Sig) (input : Sig)
      (noise_sigma : ℚ) (M : ℕ) (ns : ℚ) (seed : ℕ) (st : Err × Mat) (en : ℕ),
      st.1 ≠ .EMD_SUCCESS →
      eemdStep g siftFn input noise_sigma M ns seed st en = st) ∧
    (∀ (sd : Sig → ℚ) (siftFn : Sig → Err × Sig) (ns : ℚ) (res : Sig)
      (imf_i : ℕ) (st : CeemdanInner) (en : ℕ),
      st.sift_err ≠ .EMD_SUCCESS →
      ceemdanMember sd siftFn ns res imf_i st en = st) := by
  constructor
  · intro g siftFn input noise_sigma M ns seed st en h
    unfold eemdStep
    rw [if_pos h]
  · intro sd siftFn ns res imf_i st en h
    unfold ceemdanMember
    rw [if_pos h]

theorem c9_error_skip_witness :
    eemdStep (fun _ _ => (0 : ℚ)) (fun v => (.EMD_SUCCESS, v)) [1] 0 1 0 0
        (.EMD_GSL_ERROR, [[5]]) 0 = (.EMD_GSL_ERROR, [[5]]) ∧
    ceemdanMember (fun _ => (0 : ℚ)) (fun v => (.EMD_SUCCESS, v)) 0 [1] 0
        { sift_err := .EMD_GSL_ERROR, imf := [5], noises := [[4]], nrs := [[9]] }
        0 =
      { sift_err := .EMD_GSL_ERROR, imf := [5], noises := [[4]], nrs := [[9]] } :=
  ⟨c9_error_skip.1 (fun _ _ => (0 : ℚ)) (fun v => (.EMD_SUCCESS, v)) [1] 0 1 0 0
      (.EMD_GSL_ERROR, [[5]]) 0 (by decide),
   c9_error_skip.2 (fun _ => (0 : ℚ)) (fun v => (.EMD_SUCCESS, v)) 0 [1] 0
      { sift_err := .EMD_GSL_ERROR, imf := [5], noises := [[4]], nrs := [[9]] }
      0 (by decide)⟩

/-- C10: for every input with at least one sample and the explicit
argument `M = 1`, `ceemdan` (after successful parameter validation)
copies the input verbatim into the single output row and returns
`EMD_SUCCESS` — the result does not mention the RNG stream, the
standard-deviation routine or the sifter, so no noise is generated, no
RNG is seeded and no sifting is performed.  The shortcut is tested
before `M = 0` is replaced by `emd_num_imfs(N)`: at a concrete input
with `N = 2` (where `emd_num_imfs 2 = 1`) and a failing sifter, the
call with `M = 0` reaches the sifter and fails, so it did not take the
shortcut. -/
theorem c10_ceemdan_m1_shortcut :
    (∀ (g : ℕ → ℕ → ℚ) (sd : Sig → ℚ) (siftFn : Sig → Err × Sig) (input : Sig)
      (output0 : Mat) (es : ℕ) (ns : ℚ) (S n seed : ℕ),
      validate_eemd_parameters es ns S n = .EMD_SUCCESS → 1 ≤ input.length →
      ceemdan g sd siftFn input output0 1 es ns S n seed =
        (.EMD_SUCCESS, output0.set 0 input)) ∧
    (emd_num_imfs 2 = 1 ∧
      ceemdan (fun s i => (s : ℚ) + i) (fun _ => 1)
        (fun _ => (.EMD_GSL_ERROR, [0, 0])) [1, 2] [[7, 7]] 0 2 1 1 1 0 =
        (.EMD_GSL_ERROR, [[0, 0]]) ∧
      ((Err.EMD_GSL_ERROR, ([[0, 0]] : Mat)) ≠
        (Err.EMD_SUCCESS, ([[7, 7]] : Mat).set 0 ([1, 2] : Sig)))) := by
  refine ⟨?_, by decide, ?_, ?_⟩
  · intro g sd siftFn input output0 es ns S n seed hv hN
    unfold ceemdan
    rw [hv]
    rw [if_neg (fun h => h rfl), if_neg (by omega), if_pos rfl]
  · norm_num [ceemdan, ceemdan_main, ceemdanNoises, ceemdanModes, ceemdanMember,
      validate_eemd_parameters, emd_num_imfs, array_sub, array_add,
      array_addmul_to, array_mult, zeroMat, row, List.range_succ,
      List.replicate_succ, gsl_ne_success]
  · intro h
    exact gsl_ne_success (congrArg Prod.fst h)

theorem c10_ceemdan_m1_shortcut_witness :
    ceemdan (fun _ _ => (0 : ℚ)) (fun _ => (0 : ℚ)) (fun v => (.EMD_SUCCESS, v))
      [3] [[8]] 1 1 0 1 1 0 = (.EMD_SUCCESS, ([[8]] : Mat).set 0 [3]) :=
  c10_ceemdan_m1_shortcut.1 (fun _ _ => (0 : ℚ)) (fun _ => (0 : ℚ))
    (fun v => (.EMD_SUCCESS, v)) [3] [[8]] 1 0 1 1 0 (by decide) (by decide)

end Libeemd
